import Mathlib

/-!
Verification of the github metadata updater (`src/utils/github_updater.rs`).

The development shallowly embeds the Rust module:

* `get_github_path` embeds the regex-based extractor.  The Rust code runs
  `Regex::captures` with pattern `https?://github\.com/([\w\._-]+)/([\w\._-]+)`,
  an unanchored leftmost search.  The character class `[\w\._-]` is modelled
  over ASCII (`Char.isAlphanum` plus `_`, `.`, `-`).  Greedy repetition of a
  class that excludes `/` is maximal-munch, so the search is deterministic;
  the one optional token `s?` is deterministic as well because the literal
  that follows it starts with `:`, which can never equal `s`.
* `get_github_fields` embeds the fetcher.  The HTTP transport, the JSON
  parser (serde) and the RFC 3339 date parser (chrono) are external
  collaborators; they are modelled by the `Option HttpResp` input (with the
  body given as the JSON parse outcome) and by the `parseDate` parameter.
* `github_updater` embeds the orchestrator, with the SQL SELECT translated
  into `selectCandidates` (join, filter, order by name asc / release time
  desc, `DISTINCT ON (name)`) and the SQL UPDATE into `applyUpdate`.  The
  PostgreSQL operator `~` performs a case-sensitive POSIX regex search; in
  the pattern `^https?://github.com` the dot is unescaped and matches any
  character.  `NOW()` is the pass time `now`.
-/

/-- ASCII model of the regex character class `[\w\._-]`. -/
def ghChar (c : Char) : Bool :=
  c.isAlphanum || c = '_' || c = '.' || c = '-'

/-- Consume the literal `pat` from the front of `l`, returning the rest. -/
def dropLit : List Char → List Char → Option (List Char)
  | [], l => some l
  | _ :: _, [] => none
  | p :: ps, c :: cs => if c = p then dropLit ps cs else none

/-- Does the literal `.git` occur at the head of `l`? -/
def gitAt (l : List Char) : Bool :=
  (dropLit ".git".toList l).isSome

/-- Rust `str::ends_with(".git")`: does `l` end with the literal `.git`? -/
def endsGit : List Char → Bool
  | [] => false
  | c :: rest => decide ((c :: rest) = ".git".toList) || endsGit rest

/-- The piece of `l` before the first occurrence of `.git`; this is what
Rust `l.split(".git").next().unwrap()` evaluates to. -/
def beforeGit : List Char → List Char
  | [] => []
  | c :: rest => if gitAt (c :: rest) then [] else c :: beforeGit rest

/-- All pieces of Rust `l.split(".git")`, in order. -/
def splitGit (l : List Char) : List (List Char) :=
  match l with
  | [] => [[]]
  | c :: rest =>
    if gitAt (c :: rest) then [] :: splitGit (rest.drop 3)
    else
      match splitGit rest with
      | [] => [[c]]
      | p :: ps => (c :: p) :: ps
termination_by l.length
decreasing_by
  · simp [List.length_drop]; omega
  · simp

/-- Does `.git` occur anywhere in `l`? -/
def containsGit : List Char → Bool
  | [] => false
  | c :: rest => gitAt (c :: rest) || containsGit rest

/-- Consume the leading `https?://github\.com/` of the pattern.  The
optional `s` makes this a two-alternative literal: trying `https` first is
the greedy preference, and when it fails only the `http` branch remains
(after the common prefix `http` the pattern continues with `s` in one
branch and `:` in the other, so at most one branch can succeed). -/
def stripScheme (l : List Char) : Option (List Char) :=
  match dropLit "https://github.com/".toList l with
  | some r => some r
  | none => dropLit "http://github.com/".toList l

/-- Match the regex `https?://github\.com/([\w\._-]+)/([\w\._-]+)` at the
head of `l`, returning the two captures.  Greedy repetition of a class
that excludes `/` is maximal-munch (`takeWhile`), so matching is
deterministic. -/
def matchGithubAt (l : List Char) : Option (List Char × List Char) :=
  match stripScheme l with
  | none => none
  | some r2 =>
    if r2.takeWhile ghChar = [] then none
    else
      match r2.dropWhile ghChar with
      | [] => none
      | d :: r3 =>
        if d = '/' then
          if r3.takeWhile ghChar = [] then none
          else some (r2.takeWhile ghChar, r3.takeWhile ghChar)
        else none

/-- Leftmost regex search, as `Regex::captures` performs it. -/
def searchGithub : List Char → Option (List Char × List Char)
  | [] => none
  | c :: rest =>
    match matchGithubAt (c :: rest) with
    | some cap => some cap
    | none => searchGithub rest

/-- Embedding of `get_github_path`. -/
def get_github_path (url : String) : Option String :=
  match searchGithub url.data with
  | some (username, reponame) =>
    let reponame := if endsGit reponame then beforeGit reponame else reponame
    some (String.mk username ++ "/" ++ String.mk reponame)
  | none => none

/-- Embedding of `get_github_path` that tracks the `unwrap` on
`split(".git").next()`: the outer `none` models a panic of that unwrap,
`some r` a normal return of `r`.  (The capture-group unwraps cannot fail in
the embedding: a successful search carries both groups structurally.) -/
def get_github_path_checked (url : String) : Option (Option String) :=
  match searchGithub url.data with
  | some (username, reponame) =>
    if endsGit reponame then
      match (splitGit reponame).head? with
      | some rep => some (some (String.mk username ++ "/" ++ String.mk rep))
      | none => none
    else some (some (String.mk username ++ "/" ++ String.mk reponame))
  | none => some none

/-- JSON values, as produced by serde.  Numbers are modelled as integers
(the claims under study only concern integral values). -/
inductive Json where
  | null : Json
  | boolVal : Bool → Json
  | num : Int → Json
  | str : String → Json
  | arr : List Json → Json
  | obj : List (String × Json) → Json

/-- serde `Map::get`: first binding of key `k`. -/
def jget (fields : List (String × Json)) (k : String) : Option Json :=
  (fields.find? (fun p => p.1 = k)).map (fun p => p.2)

/-- serde `Value::as_str`. -/
def jAsStr : Json → Option String
  | .str s => some s
  | _ => none

/-- serde `Value::as_i64`: integral values in the `i64` range. -/
def jAsI64 : Json → Option Int
  | .num n => if -(2 ^ 63) ≤ n ∧ n < 2 ^ 63 then some n else none
  | _ => none

/-- The struct `GitHubFields` (times are abstract instants). -/
structure GitHubFields where
  description : String
  stars : Int
  forks : Int
  issues : Int
  last_commit : Int
deriving DecidableEq

/-- The error kinds of the fetcher (spec §7). -/
inductive FetchError where
  | transportError : FetchError
  | remoteUnavailable : FetchError
  | parseError : FetchError
deriving DecidableEq

/-- Result of running the fetcher: a value, a typed error, or a panic. -/
inductive FetchOutcome where
  | ok : GitHubFields → FetchOutcome
  | err : FetchError → FetchOutcome
  | panic : FetchOutcome
deriving DecidableEq

/-- An HTTP response: status code, and the serde parse outcome of the body
text (`none` when `Value::from_str` fails). -/
structure HttpResp where
  status : Nat
  body : Option Json

/-- Embedding of `get_github_fields` for one candidate.  Its I/O is
abstracted: `resp` is the transport outcome of the request the function
makes (`none` models a failed `send()`/body read), `now` is `Utc::now()`,
and `parseDate` models chrono `DateTime::parse_from_rfc3339`. -/
def get_github_fields (resp : Option HttpResp) (now : Int)
    (parseDate : String → Option Int) : FetchOutcome :=
  match resp with
  | none => .err .transportError
  | some r =>
    if r.status ≠ 200 then .err .remoteUnavailable
    else
      match r.body with
      | none => .err .parseError
      | some json =>
        match json with
        | .obj fields =>
          .ok {
            description := ((jget fields "description").bind jAsStr).getD "",
            stars := ((jget fields "stargazers_count").bind jAsI64).getD 0,
            forks := ((jget fields "forks_count").bind jAsI64).getD 0,
            issues := ((jget fields "open_issues").bind jAsI64).getD 0,
            last_commit :=
              (parseDate (((jget fields "pushed_at").bind jAsStr).getD "")).getD now }
        | _ => .panic

/-- A row of the `crates` table (the columns this module touches). -/
structure Crate where
  id : Int
  name : String
  github_description : Option String
  github_stars : Option Int
  github_forks : Option Int
  github_issues : Option Int
  github_last_commit : Option Int
  github_last_update : Option Int
deriving DecidableEq

/-- A row of the `releases` table (the columns this module touches). -/
structure Release where
  crate_id : Int
  repository_url : String
  release_time : Int
deriving DecidableEq

/-- A candidate tuple returned by the SELECT. -/
structure Row where
  crate_name : String
  crate_id : Int
  repository_url : String
deriving DecidableEq

/-- `INTERVAL '1 day'`, in seconds. -/
def oneDay : Int := 86400

/-- The PostgreSQL condition `repository_url ~ '^https?://github.com'`:
case-sensitive POSIX search anchored at the start; the unescaped dot
matches any character.  The optional `s` is deterministic because the
following literal starts with `:`. -/
def hostPatternMatch (url : String) : Bool :=
  match dropLit "http".toList url.data with
  | none => false
  | some r0 =>
    let r1 := match r0 with
      | 's' :: t => t
      | _ => r0
    match dropLit "://github".toList r1 with
    | none => false
    | some [] => false
    | some (_ :: r2) => (dropLit "com".toList r2).isSome

/-- The staleness condition
`github_last_update < NOW() - INTERVAL '1 day' OR github_last_update IS NULL`. -/
def isStale (c : Crate) (now : Int) : Bool :=
  match c.github_last_update with
  | none => true
  | some t => decide (t < now - oneDay)

/-- The `ORDER BY crates.name, releases.release_time DESC` ordering on
joined rows. -/
def pairLE (a b : Crate × Release) : Prop :=
  a.1.name < b.1.name ∨ (a.1.name = b.1.name ∧ b.2.release_time ≤ a.2.release_time)

instance : DecidableRel pairLE := fun a b => by
  unfold pairLE; infer_instance

instance : IsTotal (Crate × Release) pairLE where
  total a b := by
    rcases lt_trichotomy a.1.name b.1.name with h | h | h
    · exact Or.inl (Or.inl h)
    · rcases le_total b.2.release_time a.2.release_time with h2 | h2
      · exact Or.inl (Or.inr ⟨h, h2⟩)
      · exact Or.inr (Or.inr ⟨h.symm, h2⟩)
    · exact Or.inr (Or.inl h)

instance : IsTrans (Crate × Release) pairLE where
  trans a b c hab hbc := by
    rcases hab with h1 | ⟨h1, h1t⟩ <;> rcases hbc with h2 | ⟨h2, h2t⟩
    · exact Or.inl (lt_trans h1 h2)
    · exact Or.inl (h2 ▸ h1)
    · exact Or.inl (h1 ▸ h2)
    · exact Or.inr ⟨h1.trans h2, le_trans h2t h1t⟩

/-- `DISTINCT ON (crates.name)`: keep the first row of each name. -/
def distinctOnName : List (Crate × Release) → List String → List (Crate × Release)
  | [], _ => []
  | p :: ps, seen =>
    if p.1.name ∈ seen then distinctOnName ps seen
    else p :: distinctOnName ps (p.1.name :: seen)

/-- The `INNER JOIN releases ON releases.crate_id = crates.id`. -/
def joinCR (crates : List Crate) (releases : List Release) : List (Crate × Release) :=
  crates.flatMap (fun c => (releases.filter (fun r => r.crate_id = c.id)).map (fun r => (c, r)))

/-- The joined rows that the WHERE clause of the SELECT accepts. -/
def selFiltered (crates : List Crate) (releases : List Release) (now : Int) :
    List (Crate × Release) :=
  (joinCR crates releases).filter
    (fun p => hostPatternMatch p.2.repository_url && isStale p.1 now)

/-- The accepted rows in `ORDER BY crates.name, releases.release_time DESC`
order. -/
def selSorted (crates : List Crate) (releases : List Release) (now : Int) :
    List (Crate × Release) :=
  List.insertionSort pairLE (selFiltered crates releases now)

/-- The candidate SELECT of `github_updater`: join, WHERE clause, ORDER BY
name asc / release time desc, DISTINCT ON name, projected to the three
selected columns. -/
def selectCandidates (crates : List Crate) (releases : List Release) (now : Int) : List Row :=
  (distinctOnName (selSorted crates releases now) []).map
    (fun p => ⟨p.1.name, p.1.id, p.2.repository_url⟩)

/-- Rust `i64 as i32`: truncate to the low 32 bits, reinterpreted signed. -/
def toI32 (n : Int) : Int :=
  if n % 2 ^ 32 < 2 ^ 31 then n % 2 ^ 32 else n % 2 ^ 32 - 2 ^ 32

/-- The UPDATE statement: set the five metadata columns (counts cast with
`as i32`) and `github_last_update = NOW()` on every crate with this id. -/
def applyUpdate (table : List Crate) (id : Int) (f : GitHubFields) (now : Int) : List Crate :=
  table.map (fun c =>
    if c.id = id then
      { c with
        github_description := some f.description,
        github_stars := some (toI32 f.stars),
        github_forks := some (toI32 f.forks),
        github_issues := some (toI32 f.issues),
        github_last_commit := some f.last_commit,
        github_last_update := some now }
    else c)

/-- The external collaborators of one pass: whether the SELECT itself
fails, the HTTP response per github path, which UPDATEs fail at the store,
the pass time, and the RFC 3339 parser. -/
structure Env where
  selectFails : Bool
  http : String → Option HttpResp
  updateFails : Int → Bool
  now : Int
  parseDate : String → Option Int

/-- Observable state of a pass: the crates table, the crate names whose
candidate failed (one `debug!` each), and the number of rate-limit sleeps. -/
structure PassState where
  table : List Crate
  failures : List String
  sleeps : Nat
deriving DecidableEq

/-- One iteration of the loop body of `github_updater`: extract, fetch,
persist; any `Err` is logged and swallowed, then the thread sleeps.
`none` models a panic escaping the iteration. -/
def processCandidate (env : Env) (st : PassState) (row : Row) : Option PassState :=
  let step : Option PassState :=
    match get_github_path row.repository_url with
    | none => some { st with failures := st.failures ++ [row.crate_name] }
    | some path =>
      match get_github_fields (env.http path) env.now env.parseDate with
      | .panic => none
      | .err _ => some { st with failures := st.failures ++ [row.crate_name] }
      | .ok fields =>
        if env.updateFails row.crate_id then
          some { st with failures := st.failures ++ [row.crate_name] }
        else some { st with table := applyUpdate st.table row.crate_id fields env.now }
  step.map (fun s => { s with sleeps := s.sleeps + 1 })

/-- The loop of `github_updater` over the candidate rows. -/
def runPass (env : Env) : List Row → PassState → Option PassState
  | [], st => some st
  | r :: rs, st =>
    match processCandidate env st r with
    | none => none
    | some st' => runPass env rs st'

/-- Result of `github_updater`: `Ok(())` with the final observable state,
the `?`-propagated SELECT error, or a panic escaping the whole call. -/
inductive UpdaterResult where
  | ok : PassState → UpdaterResult
  | queryError : UpdaterResult
  | panicked : UpdaterResult
deriving DecidableEq

/-- Embedding of `github_updater`: run the SELECT (propagating its error),
then the per-candidate loop starting from the current table. -/
def github_updater (env : Env) (crates : List Crate) (releases : List Release) : UpdaterResult :=
  if env.selectFails then .queryError
  else
    match runPass env (selectCandidates crates releases env.now) ⟨crates, [], 0⟩ with
    | some st => .ok st
    | none => .panicked

/-- The scheme-and-host literal of the extractor pattern, for each choice
of the optional `s`. -/
def schemeL (s : Bool) : List Char :=
  (if s then "https://github.com/" else "http://github.com/").toList

/-- A nonempty run of `[\w\._-]` characters. -/
def ghRun (l : List Char) : Prop :=
  l ≠ [] ∧ ∀ c ∈ l, ghChar c = true

instance (l : List Char) : Decidable (ghRun l) := by
  unfold ghRun; infer_instance

/-- Spec-level: the URL contains a substring matching the extractor
pattern `https?://github\.com/([\w\._-]+)/([\w\._-]+)`. -/
def specHasGithubMatch (url : String) : Prop :=
  ∃ pre s o r post,
    url.data = pre ++ (schemeL s ++ (o ++ '/' :: (r ++ post))) ∧ ghRun o ∧ ghRun r

/-- Modelled from the claim: the URL is exactly
`https?://github.com/<owner>/<repo>` with owner and repo nonempty runs of
word characters, dots, underscores or hyphens (the optional `.git` suffix
is such a run, so it needs no separate case). -/
def specFullMatchB (url : String) : Bool :=
  match stripScheme url.data with
  | none => false
  | some r2 =>
    if r2.takeWhile ghChar = [] then false
    else
      match r2.dropWhile ghChar with
      | [] => false
      | d :: r3 => decide (d = '/') && decide (r3 ≠ []) && (r3.dropWhile ghChar).isEmpty

/-- Modelled from the claim: the case-insensitive variant of the host
pattern check of the Candidate Selector. -/
def hostPatternMatchCI (url : String) : Bool :=
  hostPatternMatch (String.mk (url.data.map Char.toLower))

/-- A joined pair that the WHERE clause of the SELECT accepts. -/
def qualifies (crates : List Crate) (releases : List Release) (now : Int)
    (c : Crate) (r : Release) : Prop :=
  c ∈ crates ∧ r ∈ releases ∧ r.crate_id = c.id ∧
    hostPatternMatch r.repository_url = true ∧ isStale c now = true

/-- A candidate row whose processing cannot hit the `as_object().unwrap()`
panic of the fetcher. -/
def rowNoPanic (env : Env) (row : Row) : Prop :=
  ∀ path, get_github_path row.repository_url = some path →
    get_github_fields (env.http path) env.now env.parseDate ≠ .panic

-- sanity checks mirroring the Rust unit tests
example : get_github_path "https://github.com/onur/cratesfyi" = some "onur/cratesfyi" := by decide
example : get_github_path "http://github.com/onur/cratesfyi" = some "onur/cratesfyi" := by decide
example : get_github_path "https://github.com/onur/cratesfyi.git" = some "onur/cratesfyi" := by
  decide
example : get_github_path "https://github.com/onur23cmD_M_R_L_/crates_fy-i"
    = some "onur23cmD_M_R_L_/crates_fy-i" := by decide
example : get_github_path "https://github.com/docopt/docopt.rs" = some "docopt/docopt.rs" := by
  decide
example : get_github_path "https://gitlab.com/foo/bar" = none := by decide

/-! ### Lemmas about literal consumption -/

theorem dropLit_self_append (p r : List Char) : dropLit p (p ++ r) = some r := by
  induction p with
  | nil => rfl
  | cons c ps ih => simp [dropLit, ih]

theorem dropLit_eq_some {p l r : List Char} : dropLit p l = some r ↔ l = p ++ r := by
  constructor
  · intro h
    induction p generalizing l with
    | nil => simpa [dropLit] using h
    | cons c ps ih =>
      cases l with
      | nil => simp [dropLit] at h
      | cons d ds =>
        by_cases hd : d = c
        · subst hd
          simp only [dropLit, if_pos rfl] at h
          simpa using ih h
        · simp [dropLit, hd] at h
  · rintro rfl
    exact dropLit_self_append p r

theorem gitAt_iff {l : List Char} : gitAt l = true ↔ ∃ t, l = ".git".toList ++ t := by
  unfold gitAt
  rw [Option.isSome_iff_exists]
  constructor
  · rintro ⟨t, ht⟩
    exact ⟨t, dropLit_eq_some.1 ht⟩
  · rintro ⟨t, ht⟩
    exact ⟨t, dropLit_eq_some.2 ht⟩

/-! ### Lemmas about greedy runs -/

theorem takeWhile_append_all {p : Char → Bool} {o : List Char} (m : List Char)
    (h : ∀ c ∈ o, p c = true) : (o ++ m).takeWhile p = o ++ m.takeWhile p := by
  induction o with
  | nil => simp
  | cons c t ih =>
    have hc : p c = true := h c (by simp)
    simp only [List.cons_append, List.takeWhile_cons, hc, if_pos]
    rw [ih (fun c hc => h c (by simp [hc]))]

theorem dropWhile_append_all {p : Char → Bool} {o : List Char} (m : List Char)
    (h : ∀ c ∈ o, p c = true) : (o ++ m).dropWhile p = m.dropWhile p := by
  induction o with
  | nil => simp
  | cons c t ih =>
    have hc : p c = true := h c (by simp)
    simp only [List.cons_append, List.dropWhile_cons, hc, if_pos]
    exact ih (fun c hc => h c (by simp [hc]))

/-! ### Lemmas about the scheme literal -/

theorem stripScheme_eq_some {l r : List Char} :
    stripScheme l = some r ↔ ∃ s, l = schemeL s ++ r := by
  constructor
  · intro h
    unfold stripScheme at h
    cases h1 : dropLit "https://github.com/".toList l with
    | some r' =>
      rw [h1] at h
      cases h
      exact ⟨true, dropLit_eq_some.1 h1⟩
    | none =>
      rw [h1] at h
      exact ⟨false, dropLit_eq_some.1 h⟩
  · rintro ⟨s, rfl⟩
    cases s with
    | true =>
      show stripScheme ("https://github.com/".toList ++ r) = some r
      unfold stripScheme
      rw [dropLit_self_append]
    | false =>
      show stripScheme ("http://github.com/".toList ++ r) = some r
      unfold stripScheme
      have hne : dropLit "https://github.com/".toList ("http://github.com/".toList ++ r)
          = none := rfl
      rw [hne, dropLit_self_append]

/-! ### Characterization of matching at one position -/

theorem matchGithubAt_eq_some {l o r : List Char}
    (h : matchGithubAt l = some (o, r)) :
    ∃ s post, l = schemeL s ++ (o ++ '/' :: (r ++ post)) ∧ ghRun o ∧ ghRun r := by
  unfold matchGithubAt at h
  split at h
  · cases h
  · next r2 heq =>
    split at h
    · cases h
    · next hu =>
      split at h
      · cases h
      · next d r3 hd =>
        split at h
        · next hdc =>
          split at h
          · cases h
          · next hrne =>
            injection h with h'
            injection h' with h1 h2
            obtain ⟨s, hl⟩ := stripScheme_eq_some.1 heq
            refine ⟨s, r3.dropWhile ghChar, ?_, ?_, ?_⟩
            · rw [hl]
              congr 1
              rw [← h1, ← h2]
              subst hdc
              calc r2 = r2.takeWhile ghChar ++ r2.dropWhile ghChar :=
                    (List.takeWhile_append_dropWhile ghChar r2).symm
                _ = r2.takeWhile ghChar ++ '/' :: r3 := by rw [hd]
                _ = r2.takeWhile ghChar ++ '/' :: (r3.takeWhile ghChar ++ r3.dropWhile ghChar) := by
                    rw [List.takeWhile_append_dropWhile]
            · exact ⟨h1 ▸ hu, fun c hc => List.mem_takeWhile_imp (h1 ▸ hc)⟩
            · exact ⟨h2 ▸ hrne, fun c hc => List.mem_takeWhile_imp (h2 ▸ hc)⟩
        · cases h

theorem matchGithubAt_run (s : Bool) (o r post : List Char)
    (ho : ghRun o) (hr : ghRun r) :
    matchGithubAt (schemeL s ++ (o ++ '/' :: (r ++ post))) =
      some (o, r ++ post.takeWhile ghChar) := by
  have hs : stripScheme (schemeL s ++ (o ++ '/' :: (r ++ post))) =
      some (o ++ '/' :: (r ++ post)) := stripScheme_eq_some.2 ⟨s, rfl⟩
  have hslash : ghChar '/' = false := rfl
  have ht : (o ++ '/' :: (r ++ post)).takeWhile ghChar = o := by
    rw [takeWhile_append_all _ ho.2, List.takeWhile_cons, hslash]
    simp
  have hd : (o ++ '/' :: (r ++ post)).dropWhile ghChar = '/' :: (r ++ post) := by
    rw [dropWhile_append_all _ ho.2, List.dropWhile_cons, hslash]
    simp
  have hne : r ++ post.takeWhile ghChar ≠ [] := by
    intro hcontra
    exact hr.1 (List.append_eq_nil.1 hcontra).1
  unfold matchGithubAt
  rw [hs]
  simp only [ht, hd, if_neg ho.1]
  rw [takeWhile_append_all _ hr.2, if_neg hne]
  simp

/-! ### The leftmost search -/

theorem matchGithubAt_nil : matchGithubAt [] = none := rfl

theorem searchGithub_of_matchAt {l : List Char} {cap : List Char × List Char}
    (h : matchGithubAt l = some cap) : searchGithub l = some cap := by
  cases l with
  | nil => rw [matchGithubAt_nil] at h; cases h
  | cons c rest => simp [searchGithub, h]

theorem searchGithub_eq_none_iff {l : List Char} :
    searchGithub l = none ↔ ∀ i, matchGithubAt (l.drop i) = none := by
  induction l with
  | nil =>
    simp only [searchGithub, true_iff]
    intro i
    simp [List.drop_nil, matchGithubAt_nil]
  | cons c rest ih =>
    have hstep : searchGithub (c :: rest) = none ↔
        matchGithubAt (c :: rest) = none ∧ searchGithub rest = none := by
      cases hm : matchGithubAt (c :: rest) with
      | some cap => simp [searchGithub, hm]
      | none => simp [searchGithub, hm]
    rw [hstep, ih]
    constructor
    · rintro ⟨h0, hrest⟩ i
      cases i with
      | zero => exact h0
      | succ j => exact hrest j
    · intro h
      exact ⟨h 0, fun j => h (j + 1)⟩

/-! ### Lemmas about the `.git` suffix handling -/

theorem endsGit_iff {l : List Char} : endsGit l = true ↔ ∃ p, l = p ++ ".git".toList := by
  induction l with
  | nil =>
    constructor
    · intro h; cases h
    · rintro ⟨p, hp⟩
      have := congrArg List.length hp
      simp at this
  | cons c rest ih =>
    simp only [endsGit, Bool.or_eq_true, decide_eq_true_eq, ih]
    constructor
    · rintro (h | ⟨p, hp⟩)
      · exact ⟨[], h⟩
      · exact ⟨c :: p, by simp [hp]⟩
    · rintro ⟨p, hp⟩
      cases p with
      | nil => exact Or.inl (by simpa using hp)
      | cons d p' =>
        right
        have hp' : c = d ∧ rest = p' ++ ".git".toList := by simpa using hp
        exact ⟨p', hp'.2⟩

theorem containsGit_append_git (p : List Char) : containsGit (p ++ ".git".toList) = true := by
  induction p with
  | nil => decide
  | cons c t ih =>
    show (gitAt (c :: (t ++ ".git".toList)) || containsGit (t ++ ".git".toList)) = true
    rw [ih, Bool.or_true]

theorem containsGit_of_endsGit {l : List Char} (h : endsGit l = true) :
    containsGit l = true := by
  obtain ⟨p, rfl⟩ := endsGit_iff.1 h
  exact containsGit_append_git p

theorem beforeGit_cut {l : List Char} (h : containsGit l = true) :
    ∃ t, l = beforeGit l ++ (".git".toList ++ t) := by
  induction l with
  | nil => cases h
  | cons c rest ih =>
    by_cases hg : gitAt (c :: rest) = true
    · obtain ⟨t, ht⟩ := gitAt_iff.1 hg
      refine ⟨t, ?_⟩
      rw [beforeGit, if_pos hg]
      simpa using ht
    · have hh : containsGit rest = true := by
        simp only [containsGit, Bool.or_eq_true] at h
        rcases h with h | h
        · exact absurd h hg
        · exact h
      obtain ⟨t, ht⟩ := ih hh
      refine ⟨t, ?_⟩
      rw [beforeGit, if_neg hg, List.cons_append]
      rw [← ht]

theorem beforeGit_min {l : List Char} :
    ∀ i, i < (beforeGit l).length → gitAt (l.drop i) = false := by
  induction l with
  | nil => intro i h; simp [beforeGit] at h
  | cons c rest ih =>
    intro i hi
    by_cases hg : gitAt (c :: rest) = true
    · rw [beforeGit, if_pos hg] at hi
      simp at hi
    · cases i with
      | zero =>
        simp only [List.drop_zero]
        simpa using hg
      | succ j =>
        have hj : j < (beforeGit rest).length := by
          rw [beforeGit, if_neg hg] at hi
          simpa using Nat.lt_of_succ_lt_succ (by simpa using hi)
        simpa using ih j hj

theorem splitGit_head (l : List Char) : ∃ ps, splitGit l = beforeGit l :: ps := by
  induction l using splitGit.induct with
  | case1 => exact ⟨[], by simp [splitGit, beforeGit]⟩
  | case2 c rest hg ih =>
    refine ⟨splitGit (rest.drop 3), ?_⟩
    rw [splitGit, beforeGit]
    simp [hg]
  | case3 c rest hg hnil ih =>
    obtain ⟨ps, hps⟩ := ih
    rw [hnil] at hps
    cases hps
  | case4 c rest hg p ps hcons ih =>
    obtain ⟨ps', hps'⟩ := ih
    rw [hcons] at hps'
    have hp : p = beforeGit rest ∧ ps = ps' := by
      refine ⟨?_, ?_⟩ <;> injection hps'
    refine ⟨ps', ?_⟩
    rw [splitGit]
    simp only [if_neg hg, hcons]
    rw [beforeGit, if_neg hg, hp.1, hp.2]

/-! ### Claim theorems about the Identifier Extractor -/

/-- C8: the Identifier Extractor is a total pure function: the
panic-tracking embedding returns normally on every string input and agrees
with `get_github_path` (so the unwrap after `split(".git")` is unreachable
as a failure; purity and determinism are structural, the embedding being a
function on strings). -/
theorem extractor_total_no_panic (url : String) :
    get_github_path_checked url = some (get_github_path url) := by
  unfold get_github_path_checked get_github_path
  cases hs : searchGithub url.data with
  | none => rfl
  | some cap =>
    obtain ⟨username, reponame⟩ := cap
    by_cases hg : endsGit reponame = true
    · obtain ⟨ps, hps⟩ := splitGit_head reponame
      simp [hg, hps]
    · simp [hg]

/-- C2 is false as stated: for the repo name `x.gity.git` (of the form
`<prefix>.git<middle>.git`) the extractor does not keep `x.gity` intact —
it truncates at the first `.git` occurrence, returning `o/x`. -/
theorem extractor_midstring_git_counterexample :
    get_github_path "https://github.com/o/x.gity.git" = some "o/x" ∧
    get_github_path "https://github.com/o/x.gity.git" ≠ some "o/x.gity" := by
  decide

/-- C2 (amended): `https://github.com/docopt/docopt.rs` maps to
`docopt/docopt.rs`; and whenever the captured repo name ends with `.git`,
the extractor returns the prefix of the repo name before the FIRST
occurrence of `.git` (which equals stripping the trailing suffix only when
no earlier `.git` occurs): the cut point is a `.git` occurrence and no
occurrence of `.git` starts before it. -/
theorem extractor_strips_at_first_git :
    get_github_path "https://github.com/docopt/docopt.rs" = some "docopt/docopt.rs"
  ∧ ∀ (s : Bool) (owner repo : List Char), ghRun owner → ghRun repo →
      endsGit repo = true →
      get_github_path (String.mk (schemeL s ++ (owner ++ '/' :: repo))) =
        some (String.mk owner ++ "/" ++ String.mk (beforeGit repo))
      ∧ (∃ t, repo = beforeGit repo ++ (".git".toList ++ t))
      ∧ (∀ i, i < (beforeGit repo).length → gitAt (repo.drop i) = false) := by
  constructor
  · decide
  · intro s owner repo ho hr hends
    have hm : matchGithubAt (schemeL s ++ (owner ++ '/' :: repo)) = some (owner, repo) := by
      simpa using matchGithubAt_run s owner repo [] ho hr
    have hsg : searchGithub (String.mk (schemeL s ++ (owner ++ '/' :: repo))).data
        = some (owner, repo) := searchGithub_of_matchAt hm
    refine ⟨?_, beforeGit_cut (containsGit_of_endsGit hends),
      fun i hi => beforeGit_min i hi⟩
    unfold get_github_path
    rw [hsg]
    simp [hends]

/-- Witness for the amended C2, at `https://github.com/o/x.git`. -/
theorem extractor_strips_at_first_git_witness :
    get_github_path (String.mk (schemeL true ++ ("o".toList ++ '/' :: "x.git".toList))) =
      some (String.mk "o".toList ++ "/" ++ String.mk (beforeGit "x.git".toList))
    ∧ (∃ t, "x.git".toList = beforeGit "x.git".toList ++ (".git".toList ++ t))
    ∧ (∀ i, i < (beforeGit "x.git".toList).length → gitAt ("x.git".toList.drop i) = false) :=
  extractor_strips_at_first_git.2 true "o".toList "x.git".toList
    (by decide) (by decide) (by decide)

/-- C1 is false as stated: `https://github.com/a/b/c` does not match the
claimed URL pattern (the trailing path segment is left over), yet the
extractor returns the leftmost embedded match rather than `None`, because
the regex search is unanchored. -/
theorem extractor_nonmatching_url_counterexample :
    specFullMatchB "https://github.com/a/b/c" = false ∧
    get_github_path "https://github.com/a/b/c" = some "a/b" := by
  decide

/-- C1 (amended): the extractor returns `None` exactly when the URL
contains no substring matching `https?://github.com/<owner>/<repo>`; and
for a URL that is exactly the pattern with a repo not ending in `.git` it
returns `Some (owner/repo)`.  (When the repo ends in `.git` the result is
truncation at the first `.git` occurrence.) -/
theorem extractor_match_semantics (url : String) :
    (get_github_path url = none ↔ ¬ specHasGithubMatch url)
  ∧ (∀ (s : Bool) (owner repo : List Char), ghRun owner → ghRun repo →
      endsGit repo = false →
      url.data = schemeL s ++ (owner ++ '/' :: repo) →
      get_github_path url = some (String.mk owner ++ "/" ++ String.mk repo)) := by
  constructor
  · have h1 : get_github_path url = none ↔ searchGithub url.data = none := by
      unfold get_github_path
      cases hs : searchGithub url.data with
      | none => simp
      | some cap => obtain ⟨u, r⟩ := cap; simp
    rw [h1, searchGithub_eq_none_iff]
    constructor
    · intro hall hmatch
      obtain ⟨pre, s, o, r, post, hurl, ho, hr⟩ := hmatch
      have hdrop : url.data.drop pre.length = schemeL s ++ (o ++ '/' :: (r ++ post)) := by
        rw [hurl, List.drop_left]
      have hat : matchGithubAt (url.data.drop pre.length) ≠ none := by
        rw [hdrop, matchGithubAt_run s o r post ho hr]
        simp
      exact hat (hall pre.length)
    · intro hno i
      cases hm : matchGithubAt (url.data.drop i) with
      | none => rfl
      | some cap =>
        obtain ⟨o, r⟩ := cap
        obtain ⟨s, post, hdec, ho, hr⟩ := matchGithubAt_eq_some hm
        have hfull : url.data = url.data.take i ++ (schemeL s ++ (o ++ '/' :: (r ++ post))) := by
          have h0 : url.data = url.data.take i ++ url.data.drop i :=
            (List.take_append_drop i url.data).symm
          rw [hdec] at h0
          exact h0
        exact absurd ⟨url.data.take i, s, o, r, post, hfull, ho, hr⟩ hno
  · intro s owner repo ho hr hends hurl
    have hm : matchGithubAt url.data = some (owner, repo) := by
      rw [hurl]
      simpa using matchGithubAt_run s owner repo [] ho hr
    have hsg : searchGithub url.data = some (owner, repo) := searchGithub_of_matchAt hm
    unfold get_github_path
    rw [hsg]
    simp [hends]

/-- Witness for the amended C1, at `https://github.com/ab/cd`. -/
theorem extractor_match_semantics_witness :
    get_github_path "https://github.com/ab/cd" =
      some (String.mk "ab".toList ++ "/" ++ String.mk "cd".toList) :=
  (extractor_match_semantics "https://github.com/ab/cd").2 true "ab".toList "cd".toList
    (by decide) (by decide) (by decide) (by decide)

/-! ### Equation lemmas for one loop iteration -/

theorem processCandidate_extract_fail {env : Env} {st : PassState} {row : Row}
    (hp : get_github_path row.repository_url = none) :
    processCandidate env st row =
      some { st with failures := st.failures ++ [row.crate_name], sleeps := st.sleeps + 1 } := by
  simp [processCandidate, hp]

theorem processCandidate_fetch_err {env : Env} {st : PassState} {row : Row}
    {path : String} {e : FetchError}
    (hp : get_github_path row.repository_url = some path)
    (hf : get_github_fields (env.http path) env.now env.parseDate = .err e) :
    processCandidate env st row =
      some { st with failures := st.failures ++ [row.crate_name], sleeps := st.sleeps + 1 } := by
  simp [processCandidate, hp, hf]

theorem processCandidate_fetch_panic {env : Env} {st : PassState} {row : Row}
    {path : String}
    (hp : get_github_path row.repository_url = some path)
    (hf : get_github_fields (env.http path) env.now env.parseDate = .panic) :
    processCandidate env st row = none := by
  simp [processCandidate, hp, hf]

theorem processCandidate_persist_fail {env : Env} {st : PassState} {row : Row}
    {path : String} {fields : GitHubFields}
    (hp : get_github_path row.repository_url = some path)
    (hf : get_github_fields (env.http path) env.now env.parseDate = .ok fields)
    (hu : env.updateFails row.crate_id = true) :
    processCandidate env st row =
      some { st with failures := st.failures ++ [row.crate_name], sleeps := st.sleeps + 1 } := by
  simp [processCandidate, hp, hf, hu]

theorem processCandidate_success {env : Env} {st : PassState} {row : Row}
    {path : String} {fields : GitHubFields}
    (hp : get_github_path row.repository_url = some path)
    (hf : get_github_fields (env.http path) env.now env.parseDate = .ok fields)
    (hu : env.updateFails row.crate_id = false) :
    processCandidate env st row =
      some { st with
        table := applyUpdate st.table row.crate_id fields env.now,
        sleeps := st.sleeps + 1 } := by
  simp [processCandidate, hp, hf, hu]

/-! ### Claim theorems about the Metadata Fetcher -/

/-- C5: on an HTTP 200 response whose body is a JSON object the fetcher
never fails; every field is populated, with the defaults of spec §4.3 for
absent or wrong-typed fields (the current time stands in for an absent,
non-string, or unparsable `pushed_at`). -/
theorem fetcher_applies_defaults (fields : List (String × Json)) (now : Int)
    (parseDate : String → Option Int) (hEmpty : parseDate "" = none) :
    ∃ g, get_github_fields (some ⟨200, some (.obj fields)⟩) now parseDate = .ok g
      ∧ ((jget fields "description").bind jAsStr = none → g.description = "")
      ∧ (∀ s, (jget fields "description").bind jAsStr = some s → g.description = s)
      ∧ ((jget fields "stargazers_count").bind jAsI64 = none → g.stars = 0)
      ∧ (∀ n, (jget fields "stargazers_count").bind jAsI64 = some n → g.stars = n)
      ∧ ((jget fields "forks_count").bind jAsI64 = none → g.forks = 0)
      ∧ (∀ n, (jget fields "forks_count").bind jAsI64 = some n → g.forks = n)
      ∧ ((jget fields "open_issues").bind jAsI64 = none → g.issues = 0)
      ∧ (∀ n, (jget fields "open_issues").bind jAsI64 = some n → g.issues = n)
      ∧ (jget fields "pushed_at" = none → g.last_commit = now)
      ∧ (∀ v, jget fields "pushed_at" = some v → jAsStr v = none → g.last_commit = now)
      ∧ (∀ s, (jget fields "pushed_at").bind jAsStr = some s → parseDate s = none →
          g.last_commit = now)
      ∧ (∀ s t, (jget fields "pushed_at").bind jAsStr = some s → parseDate s = some t →
          g.last_commit = t) := by
  refine ⟨_, rfl, ?_, ?_, ?_, ?_, ?_, ?_, ?_, ?_, ?_, ?_, ?_, ?_⟩
  · intro h; simp [h]
  · intro s h; simp [h]
  · intro h; simp [h]
  · intro n h; simp [h]
  · intro h; simp [h]
  · intro n h; simp [h]
  · intro h; simp [h]
  · intro n h; simp [h]
  · intro h; simp [h, hEmpty]
  · intro v h1 h2; simp [h1, h2, hEmpty]
  · intro s h1 h2; simp [h1, h2]
  · intro s t h1 h2; simp [h1, h2]

/-- Witness for C5, at the spec's example body
`{"description":"x","stargazers_count":5}`. -/
theorem fetcher_applies_defaults_witness :
    ∃ g, get_github_fields
        (some ⟨200, some (.obj [("description", .str "x"), ("stargazers_count", .num 5)])⟩)
        1234 (fun _ => none) = .ok g
      ∧ ((jget [("description", .str "x"), ("stargazers_count", .num 5)] "description").bind
          jAsStr = none → g.description = "")
      ∧ (∀ s, (jget [("description", .str "x"), ("stargazers_count", .num 5)] "description").bind
          jAsStr = some s → g.description = s)
      ∧ ((jget [("description", .str "x"), ("stargazers_count", .num 5)]
          "stargazers_count").bind jAsI64 = none → g.stars = 0)
      ∧ (∀ n, (jget [("description", .str "x"), ("stargazers_count", .num 5)]
          "stargazers_count").bind jAsI64 = some n → g.stars = n)
      ∧ ((jget [("description", .str "x"), ("stargazers_count", .num 5)] "forks_count").bind
          jAsI64 = none → g.forks = 0)
      ∧ (∀ n, (jget [("description", .str "x"), ("stargazers_count", .num 5)] "forks_count").bind
          jAsI64 = some n → g.forks = n)
      ∧ ((jget [("description", .str "x"), ("stargazers_count", .num 5)] "open_issues").bind
          jAsI64 = none → g.issues = 0)
      ∧ (∀ n, (jget [("description", .str "x"), ("stargazers_count", .num 5)] "open_issues").bind
          jAsI64 = some n → g.issues = n)
      ∧ (jget [("description", .str "x"), ("stargazers_count", .num 5)] "pushed_at" = none →
          g.last_commit = 1234)
      ∧ (∀ v, jget [("description", .str "x"), ("stargazers_count", .num 5)] "pushed_at" = some v →
          jAsStr v = none → g.last_commit = 1234)
      ∧ (∀ s, (jget [("description", .str "x"), ("stargazers_count", .num 5)] "pushed_at").bind
          jAsStr = some s → (fun _ => (none : Option Int)) s = none → g.last_commit = 1234)
      ∧ (∀ s t, (jget [("description", .str "x"), ("stargazers_count", .num 5)] "pushed_at").bind
          jAsStr = some s → (fun _ => (none : Option Int)) s = some t → g.last_commit = t) :=
  fetcher_applies_defaults [("description", .str "x"), ("stargazers_count", .num 5)]
    1234 (fun _ => none) rfl

/-- C9: on a 200 response whose body is valid JSON but not an object,
`get_github_fields` panics (models `as_object().unwrap()`); the typed
`ParseError` is returned only when the body fails JSON parsing entirely. -/
theorem fetcher_panics_on_non_object :
    (∀ (xs : List Json) (now : Int) (pd : String → Option Int),
       get_github_fields (some ⟨200, some (.arr xs)⟩) now pd = .panic)
  ∧ (∀ (now : Int) (pd : String → Option Int),
       get_github_fields (some ⟨200, some .null⟩) now pd = .panic)
  ∧ (∀ (b : Bool) (now : Int) (pd : String → Option Int),
       get_github_fields (some ⟨200, some (.boolVal b)⟩) now pd = .panic)
  ∧ (∀ (n : Int) (now : Int) (pd : String → Option Int),
       get_github_fields (some ⟨200, some (.num n)⟩) now pd = .panic)
  ∧ (∀ (s : String) (now : Int) (pd : String → Option Int),
       get_github_fields (some ⟨200, some (.str s)⟩) now pd = .panic)
  ∧ (∀ (resp : Option HttpResp) (now : Int) (pd : String → Option Int),
       get_github_fields resp now pd = .err .parseError →
       ∃ r, resp = some r ∧ r.status = 200 ∧ r.body = none) := by
  refine ⟨fun xs now pd => rfl, fun now pd => rfl, fun b now pd => rfl,
    fun n now pd => rfl, fun s now pd => rfl, ?_⟩
  intro resp now pd h
  cases resp with
  | none => cases h
  | some r =>
    obtain ⟨status, body⟩ := r
    by_cases hs : status = 200
    · subst hs
      cases body with
      | none => exact ⟨⟨200, none⟩, rfl, rfl, rfl⟩
      | some j =>
        cases j <;> simp [get_github_fields] at h
    · rw [get_github_fields, if_pos (by simpa using hs)] at h
      cases h

/-- Witness for C9's `ParseError` characterization, at a 200 response with
an unparsable body. -/
theorem fetcher_panics_on_non_object_witness :
    ∃ r, (some (⟨200, none⟩ : HttpResp)) = some r ∧ r.status = 200 ∧ r.body = none :=
  fetcher_panics_on_non_object.2.2.2.2.2 (some ⟨200, none⟩) 0 (fun _ => none) rfl

/-- C6: whenever the remote answers a candidate's request with a non-200
status, the fetcher fails with the `RemoteUnavailable` error and the loop
iteration performs no UPDATE: the table is left untouched and the failure
is logged. -/
theorem non200_fails_without_update (env : Env) (st : PassState) (row : Row)
    (path : String) (resp : HttpResp)
    (hpath : get_github_path row.repository_url = some path)
    (hresp : env.http path = some resp)
    (hstatus : resp.status ≠ 200) :
    get_github_fields (env.http path) env.now env.parseDate = .err .remoteUnavailable ∧
    processCandidate env st row =
      some { st with failures := st.failures ++ [row.crate_name], sleeps := st.sleeps + 1 } := by
  have hfetch : get_github_fields (env.http path) env.now env.parseDate
      = .err .remoteUnavailable := by
    rw [hresp]
    simp [get_github_fields, hstatus]
  exact ⟨hfetch, processCandidate_fetch_err hpath hfetch⟩

def w6env : Env := ⟨false, fun _ => some ⟨404, none⟩, fun _ => false, 0, fun _ => none⟩

def w6row : Row := ⟨"a", 1, "https://github.com/a/b"⟩

def w6st : PassState := ⟨[], [], 0⟩

/-- Witness for C6, at a 404 response. -/
theorem non200_fails_without_update_witness :
    get_github_fields (w6env.http "a/b") w6env.now w6env.parseDate = .err .remoteUnavailable ∧
    processCandidate w6env w6st w6row =
      some { w6st with
        failures := w6st.failures ++ [w6row.crate_name],
        sleeps := w6st.sleeps + 1 } :=
  non200_fails_without_update w6env w6st w6row "a/b" ⟨404, none⟩ (by decide) rfl (by decide)

/-! ### Lemmas about the i32 cast -/

theorem toI32_mod (n : Int) : toI32 n % 2 ^ 32 = n % 2 ^ 32 := by
  unfold toI32
  have e32 : (2 : Int) ^ 32 = 4294967296 := by norm_num
  have e31 : (2 : Int) ^ 31 = 2147483648 := by norm_num
  rw [e32, e31]
  split <;> omega

theorem toI32_bounds (n : Int) : -(2 ^ 31) ≤ toI32 n ∧ toI32 n < 2 ^ 31 := by
  unfold toI32
  have e32 : (2 : Int) ^ 32 = 4294967296 := by norm_num
  have e31 : (2 : Int) ^ 31 = 2147483648 := by norm_num
  rw [e32, e31]
  constructor <;> split <;> omega

theorem applyUpdate_matching_row {table : List Crate} {id : Int} {f : GitHubFields}
    {now : Int} {c : Crate} (hc : c ∈ applyUpdate table id f now) (hid : c.id = id) :
    c.github_description = some f.description ∧
    c.github_stars = some (toI32 f.stars) ∧
    c.github_forks = some (toI32 f.forks) ∧
    c.github_issues = some (toI32 f.issues) ∧
    c.github_last_commit = some f.last_commit ∧
    c.github_last_update = some now := by
  unfold applyUpdate at hc
  rw [List.mem_map] at hc
  obtain ⟨c0, hc0, rfl⟩ := hc
  by_cases h : c0.id = id
  · simp [h]
  · simp only [if_neg h] at hid ⊢
    exact absurd hid h

/-- C10: the counts reaching the UPDATE go through `as i32`: every
persisted value is the fetched `i64` reduced modulo `2^32` into
`[-2^31, 2^31)`, so a fetched value outside the `i32` range is stored as a
different number; and `as_i64` accepts any in-range value, including
negative ones. -/
theorem counts_cast_to_i32 :
    (∀ (table : List Crate) (id : Int) (f : GitHubFields) (now : Int),
       ∀ c ∈ applyUpdate table id f now, c.id = id →
         c.github_stars = some (toI32 f.stars) ∧ c.github_forks = some (toI32 f.forks) ∧
         c.github_issues = some (toI32 f.issues))
  ∧ (∀ n : Int, toI32 n % 2 ^ 32 = n % 2 ^ 32 ∧ -(2 ^ 31) ≤ toI32 n ∧ toI32 n < 2 ^ 31)
  ∧ (∀ n : Int, n < -(2 ^ 31) ∨ 2 ^ 31 ≤ n → toI32 n ≠ n)
  ∧ (∀ n : Int, -(2 ^ 63) ≤ n → n < 2 ^ 63 → jAsI64 (Json.num n) = some n) := by
  refine ⟨?_, ?_, ?_, ?_⟩
  · intro table id f now c hc hid
    obtain ⟨-, h1, h2, h3, -, -⟩ := applyUpdate_matching_row hc hid
    exact ⟨h1, h2, h3⟩
  · intro n
    exact ⟨toI32_mod n, toI32_bounds n⟩
  · intro n h
    have hb := toI32_bounds n
    omega
  · intro n h1 h2
    simp only [jAsI64]
    rw [if_pos ⟨h1, h2⟩]

def w10fields : GitHubFields := ⟨"d", 5000000000, -3, 70, 9⟩

def w10crate : Crate := ⟨5, "w", none, none, none, none, none, none⟩

def w10updated : Crate :=
  ⟨5, "w", some "d", some 705032704, some (-3), some 70, some 9, some 77⟩

/-- Witness for C10: 5000000000 stars are stored as 705032704, and a
negative count is accepted by the parser. -/
theorem counts_cast_to_i32_witness :
    (w10updated.github_stars = some (toI32 w10fields.stars) ∧
     w10updated.github_forks = some (toI32 w10fields.forks) ∧
     w10updated.github_issues = some (toI32 w10fields.issues))
    ∧ toI32 5000000000 ≠ 5000000000
    ∧ jAsI64 (Json.num (-7)) = some (-7) :=
  ⟨counts_cast_to_i32.1 [w10crate] 5 w10fields 77 w10updated (by decide) (by decide),
   counts_cast_to_i32.2.2.1 5000000000 (Or.inr (by decide)),
   counts_cast_to_i32.2.2.2 (-7) (by decide) (by decide)⟩

/-! ### Claim theorems about the Orchestrator and Persister -/

def c3crate : Crate := ⟨1, "a", none, none, none, none, none, none⟩

def c3rel : Release := ⟨1, "https://github.com/a/b", 10⟩

def c3env : Env := ⟨false, fun _ => some ⟨404, none⟩, fun _ => false, 1000000, fun _ => none⟩

/-- C3 is false as stated: in a pass whose only candidate fails (a 404),
the attempt is made (one sleep, one logged failure) yet the crate row is
left untouched — `github_last_update` stays NULL instead of being set to
the pass time. -/
theorem last_update_unset_on_failed_attempt_counterexample :
    github_updater c3env [c3crate] [c3rel] = .ok ⟨[c3crate], ["a"], 1⟩ ∧
    c3crate.github_last_update = none ∧
    (none : Option Int) ≠ some c3env.now := by
  decide

/-- C3 (amended): `github_last_update` is set to the pass time only by a
successful iteration (extraction, fetch and UPDATE all succeed); a failed
iteration leaves the table unchanged.  Every crate row the UPDATE touches
gets `github_last_update = now`. -/
theorem last_update_only_on_success :
    (∀ (env : Env) (st : PassState) (row : Row) (st' : PassState),
       processCandidate env st row = some st' →
       st'.table = st.table ∨
       ∃ path fields, get_github_path row.repository_url = some path ∧
         get_github_fields (env.http path) env.now env.parseDate = .ok fields ∧
         env.updateFails row.crate_id = false ∧
         st'.table = applyUpdate st.table row.crate_id fields env.now)
  ∧ (∀ (table : List Crate) (id : Int) (f : GitHubFields) (now : Int),
       ∀ c ∈ applyUpdate table id f now, c.id = id → c.github_last_update = some now) := by
  constructor
  · intro env st row st' h
    cases hp : get_github_path row.repository_url with
    | none =>
      rw [processCandidate_extract_fail hp] at h
      left
      cases h
      rfl
    | some path =>
      cases hf : get_github_fields (env.http path) env.now env.parseDate with
      | panic => rw [processCandidate_fetch_panic hp hf] at h; cases h
      | err e =>
        rw [processCandidate_fetch_err hp hf] at h
        left
        cases h
        rfl
      | ok fields =>
        cases hu : env.updateFails row.crate_id with
        | true =>
          rw [processCandidate_persist_fail hp hf hu] at h
          left
          cases h
          rfl
        | false =>
          rw [processCandidate_success hp hf hu] at h
          right
          refine ⟨path, fields, rfl, hf, rfl, ?_⟩
          cases h
          rfl
  · intro table id f now c hc hid
    exact (applyUpdate_matching_row hc hid).2.2.2.2.2

def w3env : Env :=
  ⟨false, fun _ => some ⟨200, some (.obj [("stargazers_count", .num 7)])⟩,
   fun _ => false, 55, fun _ => none⟩

def w3row : Row := ⟨"a", 1, "https://github.com/a/b"⟩

def w3st : PassState := ⟨[⟨1, "a", none, none, none, none, none, none⟩], [], 0⟩

def w3stAfter : PassState :=
  ⟨[⟨1, "a", some "", some 7, some 0, some 0, some 55, some 55⟩], [], 1⟩

/-- Witness for the amended C3: a successful iteration rewrites the table
through the UPDATE, and the touched row carries `github_last_update = 55`. -/
theorem last_update_only_on_success_witness :
    (w3stAfter.table = w3st.table ∨
     ∃ path fields, get_github_path w3row.repository_url = some path ∧
       get_github_fields (w3env.http path) w3env.now w3env.parseDate = .ok fields ∧
       w3env.updateFails w3row.crate_id = false ∧
       w3stAfter.table = applyUpdate w3st.table w3row.crate_id fields w3env.now)
    ∧ (⟨1, "a", some "", some 7, some 0, some 0, some 55, some 55⟩ : Crate).github_last_update
        = some 55 := by
  constructor
  · exact last_update_only_on_success.1 w3env w3st w3row w3stAfter (by decide)
  · exact last_update_only_on_success.2 w3st.table 1
      ⟨"", 7, 0, 0, 55⟩ 55
      ⟨1, "a", some "", some 7, some 0, some 0, some 55, some 55⟩ (by decide) rfl

theorem processCandidate_no_panic (env : Env) (st : PassState) (row : Row)
    (h : rowNoPanic env row) :
    ∃ st', processCandidate env st row = some st' ∧ st'.sleeps = st.sleeps + 1 := by
  cases hp : get_github_path row.repository_url with
  | none => exact ⟨_, processCandidate_extract_fail hp, rfl⟩
  | some path =>
    cases hf : get_github_fields (env.http path) env.now env.parseDate with
    | panic => exact absurd hf (h path hp)
    | err e => exact ⟨_, processCandidate_fetch_err hp hf, rfl⟩
    | ok fields =>
      cases hu : env.updateFails row.crate_id with
      | true => exact ⟨_, processCandidate_persist_fail hp hf hu, rfl⟩
      | false => exact ⟨_, processCandidate_success hp hf hu, rfl⟩

theorem runPass_total (env : Env) (rows : List Row) (st : PassState)
    (h : ∀ row ∈ rows, rowNoPanic env row) :
    ∃ st', runPass env rows st = some st' ∧ st'.sleeps = st.sleeps + rows.length := by
  induction rows generalizing st with
  | nil => exact ⟨st, rfl, by simp⟩
  | cons r rs ih =>
    obtain ⟨st1, h1, hs1⟩ := processCandidate_no_panic env st r (h r (by simp))
    obtain ⟨st2, h2, hs2⟩ := ih st1 (fun row hrow => h row (by simp [hrow]))
    refine ⟨st2, ?_, ?_⟩
    · unfold runPass
      rw [h1]
      exact h2
    · rw [hs2, hs1]
      simp
      omega

/-- C7: every per-candidate `Err` (extraction, transport, remote status,
parse, persist) is swallowed inside the loop: `github_updater` reports the
query error exactly when the SELECT itself fails, and otherwise — as long
as no candidate triggers the non-object-body panic — returns Ok having
attempted (and slept after) every selected candidate. -/
theorem updater_error_isolation (env : Env) (crates : List Crate) (releases : List Release) :
    (github_updater env crates releases = .queryError ↔ env.selectFails = true)
  ∧ (env.selectFails = false →
     (∀ row ∈ selectCandidates crates releases env.now, rowNoPanic env row) →
     ∃ st, github_updater env crates releases = .ok st ∧
       st.sleeps = (selectCandidates crates releases env.now).length) := by
  constructor
  · unfold github_updater
    by_cases hsel : env.selectFails = true
    · simp [hsel]
    · cases hrun : runPass env (selectCandidates crates releases env.now) ⟨crates, [], 0⟩ with
      | some st => simp [hsel, hrun]
      | none => simp [hsel, hrun]
  · intro hsel hnp
    obtain ⟨st, hst, hsleeps⟩ := runPass_total env _ ⟨crates, [], 0⟩ hnp
    refine ⟨st, ?_, by simpa using hsleeps⟩
    unfold github_updater
    rw [if_neg (by simp [hsel]), hst]

def w7crate : Crate := ⟨1, "a", none, none, none, none, none, none⟩

def w7rel : Release := ⟨1, "https://github.com/a/b", 10⟩

def w7env : Env :=
  ⟨false, fun _ => some ⟨200, some (.obj [])⟩, fun _ => false, 999999, fun _ => none⟩

/-- Witness for C7: a pass over one selected candidate returns Ok with one
sleep. -/
theorem updater_error_isolation_witness :
    ∃ st, github_updater w7env [w7crate] [w7rel] = .ok st ∧
      st.sleeps = (selectCandidates [w7crate] [w7rel] w7env.now).length :=
  (updater_error_isolation w7env [w7crate] [w7rel]).2 rfl (by
    intro row hrow path hpath
    have hsel : selectCandidates [w7crate] [w7rel] w7env.now
        = [⟨"a", 1, "https://github.com/a/b"⟩] := by decide
    rw [hsel] at hrow
    have hrow' : row = ⟨"a", 1, "https://github.com/a/b"⟩ := by simpa using hrow
    subst hrow'
    have h0 : get_github_path "https://github.com/a/b" = some "a/b" := by decide
    rw [h0] at hpath
    have hp : path = "a/b" := by injection hpath with h; exact h.symm
    subst hp
    decide)

/-! ### Lemmas about the Candidate Selector -/

theorem joinCR_mem {crates : List Crate} {releases : List Release} {p : Crate × Release} :
    p ∈ joinCR crates releases ↔
      p.1 ∈ crates ∧ p.2 ∈ releases ∧ p.2.crate_id = p.1.id := by
  obtain ⟨c, r⟩ := p
  unfold joinCR
  rw [List.mem_flatMap]
  constructor
  · rintro ⟨c', hc', hmem⟩
    rw [List.mem_map] at hmem
    obtain ⟨r', hr', heq⟩ := hmem
    rw [List.mem_filter] at hr'
    obtain ⟨hrel, hcid⟩ := hr'
    injection heq with e1 e2
    subst e1
    subst e2
    exact ⟨hc', hrel, of_decide_eq_true hcid⟩
  · rintro ⟨h1, h2, h3⟩
    refine ⟨c, h1, ?_⟩
    rw [List.mem_map]
    refine ⟨r, ?_, rfl⟩
    rw [List.mem_filter]
    exact ⟨h2, decide_eq_true h3⟩

theorem selFiltered_mem {crates : List Crate} {releases : List Release} {now : Int}
    {p : Crate × Release} :
    p ∈ selFiltered crates releases now ↔ qualifies crates releases now p.1 p.2 := by
  unfold selFiltered qualifies
  rw [List.mem_filter, joinCR_mem, Bool.and_eq_true]
  constructor
  · rintro ⟨⟨h1, h2, h3⟩, h4, h5⟩
    exact ⟨h1, h2, h3, h4, h5⟩
  · rintro ⟨h1, h2, h3, h4, h5⟩
    exact ⟨⟨h1, h2, h3⟩, h4, h5⟩

theorem selSorted_mem {crates : List Crate} {releases : List Release} {now : Int}
    {p : Crate × Release} :
    p ∈ selSorted crates releases now ↔ qualifies crates releases now p.1 p.2 := by
  unfold selSorted
  rw [List.mem_insertionSort, selFiltered_mem]

theorem selSorted_pairwise (crates : List Crate) (releases : List Release) (now : Int) :
    (selSorted crates releases now).Pairwise pairLE :=
  List.sorted_insertionSort pairLE (selFiltered crates releases now)

theorem distinctOnName_sublist (l : List (Crate × Release)) (seen : List String) :
    (distinctOnName l seen).Sublist l := by
  induction l generalizing seen with
  | nil => simp [distinctOnName]
  | cons p ps ih =>
    unfold distinctOnName
    split
    · exact (ih seen).cons p
    · exact List.Sublist.cons₂ p (ih (p.1.name :: seen))

theorem distinctOnName_notin_seen {l : List (Crate × Release)} {seen : List String} :
    ∀ q ∈ distinctOnName l seen, q.1.name ∉ seen := by
  induction l generalizing seen with
  | nil => simp [distinctOnName]
  | cons p ps ih =>
    intro q hq
    unfold distinctOnName at hq
    split at hq
    · exact ih q hq
    · rcases List.mem_cons.1 hq with rfl | hq'
      · next hmem => exact hmem
      · have hnot := ih q hq'
        intro hc
        exact hnot (List.mem_cons_of_mem _ hc)

theorem distinctOnName_names_distinct (l : List (Crate × Release)) (seen : List String) :
    (distinctOnName l seen).Pairwise (fun a b => a.1.name ≠ b.1.name) := by
  induction l generalizing seen with
  | nil => simp [distinctOnName]
  | cons p ps ih =>
    unfold distinctOnName
    split
    · exact ih seen
    · refine List.Pairwise.cons ?_ (ih (p.1.name :: seen))
      intro q hq hc
      exact distinctOnName_notin_seen q hq (by rw [← hc]; exact List.mem_cons_self _ _)

theorem distinctOnName_complete {l : List (Crate × Release)} {seen : List String}
    {q : Crate × Release} (hq : q ∈ l) (hseen : q.1.name ∉ seen) :
    ∃ q' ∈ distinctOnName l seen, q'.1.name = q.1.name := by
  induction l generalizing seen with
  | nil => cases hq
  | cons p ps ih =>
    unfold distinctOnName
    split
    · next hmem =>
      rcases List.mem_cons.1 hq with rfl | hq'
      · exact absurd hmem hseen
      · exact ih hq' hseen
    · next hmem =>
      rcases List.mem_cons.1 hq with rfl | hq'
      · exact ⟨q, List.mem_cons_self _ _, rfl⟩
      · by_cases hname : q.1.name = p.1.name
        · exact ⟨p, List.mem_cons_self _ _, hname.symm⟩
        · obtain ⟨q', hq'', heq⟩ := ih hq' (by
            intro hc
            rcases List.mem_cons.1 hc with h | h
            · exact hname h
            · exact hseen h)
          exact ⟨q', List.mem_cons_of_mem _ hq'', heq⟩

theorem distinctOnName_max {l : List (Crate × Release)} (hl : l.Pairwise pairLE) :
    ∀ (seen : List String), ∀ q' ∈ distinctOnName l seen, ∀ x ∈ l,
      x.1.name = q'.1.name → x.2.release_time ≤ q'.2.release_time := by
  induction l with
  | nil => intro seen q' hq'; simp [distinctOnName] at hq'
  | cons p ps ih =>
    have hp := List.pairwise_cons.1 hl
    intro seen q' hq' x hx hname
    unfold distinctOnName at hq'
    split at hq'
    · next hmem =>
      rcases List.mem_cons.1 hx with rfl | hx'
      · exact absurd (hname ▸ hmem) (distinctOnName_notin_seen q' hq')
      · exact ih hp.2 seen q' hq' x hx' hname
    · next hmem =>
      rcases List.mem_cons.1 hq' with rfl | hq''
      · rcases List.mem_cons.1 hx with rfl | hx'
        · exact le_refl _
        · rcases hp.1 x hx' with h | ⟨h1, h2⟩
          · rw [hname] at h
            exact absurd h (lt_irrefl _)
          · exact h2
      · rcases List.mem_cons.1 hx with rfl | hx'
        · have : q'.1.name ∈ x.1.name :: seen := by
            rw [← hname]
            exact List.mem_cons_self _ _
          exact absurd this (distinctOnName_notin_seen q' hq'')
        · exact ih hp.2 _ q' hq'' x hx' hname

def c4crate : Crate := ⟨1, "a", none, none, none, none, none, none⟩

def c4rel : Release := ⟨1, "HTTP://github.com/x/y", 5⟩

/-- C4 is false as stated: the SQL operator `~` matches case-sensitively,
so a never-synced crate whose release URL is `HTTP://github.com/x/y`
(uppercase scheme, matched by the claimed case-insensitive host check) is
not selected. -/
theorem selector_case_sensitive_counterexample :
    hostPatternMatchCI "HTTP://github.com/x/y" = true ∧
    isStale c4crate 1000000 = true ∧
    selectCandidates [c4crate] [c4rel] 1000000 = [] := by
  decide

/-- C4 (amended): the Selector matches release URLs case-sensitively
against the POSIX pattern `^https?://github.com` (unescaped dot); it
returns one row per qualifying package name — stale (absent or
older-than-threshold last sync) with at least one matching release — built
from a release of maximal release time among the package name's qualifying
releases, and rows are ordered by package name strictly ascending. -/
theorem selector_semantics (crates : List Crate) (releases : List Release) (now : Int) :
    (∀ row ∈ selectCandidates crates releases now,
       ∃ c r, qualifies crates releases now c r ∧
         row = ⟨c.name, c.id, r.repository_url⟩ ∧
         ∀ c' r', qualifies crates releases now c' r' → c'.name = c.name →
           r'.release_time ≤ r.release_time)
  ∧ (∀ c ∈ crates, isStale c now = true →
       (∃ r ∈ releases, r.crate_id = c.id ∧ hostPatternMatch r.repository_url = true) →
       ∃ row ∈ selectCandidates crates releases now, row.crate_name = c.name)
  ∧ (selectCandidates crates releases now).Pairwise
      (fun a b => a.crate_name < b.crate_name) := by
  have hsorted := selSorted_pairwise crates releases now
  refine ⟨?_, ?_, ?_⟩
  · intro row hrow
    unfold selectCandidates at hrow
    rw [List.mem_map] at hrow
    obtain ⟨q', hq', rfl⟩ := hrow
    have hqual : qualifies crates releases now q'.1 q'.2 :=
      selSorted_mem.1 ((distinctOnName_sublist _ _).mem hq')
    refine ⟨q'.1, q'.2, hqual, rfl, ?_⟩
    intro c' r' hq hname
    have hx : (c', r') ∈ selSorted crates releases now := selSorted_mem.2 hq
    exact distinctOnName_max hsorted [] q' hq' (c', r') hx hname
  · rintro c hc hstale ⟨r, hr, hcid, hhost⟩
    have hx : (c, r) ∈ selSorted crates releases now :=
      selSorted_mem.2 ⟨hc, hr, hcid, hhost, hstale⟩
    obtain ⟨q', hq', heq⟩ := distinctOnName_complete hx (List.not_mem_nil _)
    refine ⟨⟨q'.1.name, q'.1.id, q'.2.repository_url⟩, ?_, heq⟩
    unfold selectCandidates
    rw [List.mem_map]
    exact ⟨q', hq', rfl⟩
  · unfold selectCandidates
    rw [List.pairwise_map]
    have h1 : (distinctOnName (selSorted crates releases now) []).Pairwise pairLE :=
      hsorted.sublist (distinctOnName_sublist _ _)
    have h2 := distinctOnName_names_distinct (selSorted crates releases now) []
    refine (h1.and h2).imp ?_
    rintro a b ⟨hle, hne⟩
    rcases hle with h | ⟨h, -⟩
    · exact h
    · exact absurd h hne

def w4crateA : Crate := ⟨1, "aa", none, none, none, none, none, none⟩

def w4crateB : Crate := ⟨2, "bb", some "", none, none, none, none, some 0⟩

def w4relA1 : Release := ⟨1, "https://github.com/a/old", 3⟩

def w4relA2 : Release := ⟨1, "https://github.com/a/new", 9⟩

def w4relB : Release := ⟨2, "https://github.com/b/b", 4⟩

/-- Witness for the amended C4, over two stale crates (`aa` never synced,
`bb` synced long ago) and three releases, two of them for `aa`. -/
theorem selector_semantics_witness :
    (∀ row ∈ selectCandidates [w4crateA, w4crateB] [w4relA1, w4relA2, w4relB] 1000000,
       ∃ c r, qualifies [w4crateA, w4crateB] [w4relA1, w4relA2, w4relB] 1000000 c r ∧
         row = ⟨c.name, c.id, r.repository_url⟩ ∧
         ∀ c' r', qualifies [w4crateA, w4crateB] [w4relA1, w4relA2, w4relB] 1000000 c' r' →
           c'.name = c.name → r'.release_time ≤ r.release_time)
  ∧ (∀ c ∈ [w4crateA, w4crateB], isStale c 1000000 = true →
       (∃ r ∈ [w4relA1, w4relA2, w4relB], r.crate_id = c.id ∧
         hostPatternMatch r.repository_url = true) →
       ∃ row ∈ selectCandidates [w4crateA, w4crateB] [w4relA1, w4relA2, w4relB] 1000000,
         row.crate_name = c.name)
  ∧ (selectCandidates [w4crateA, w4crateB] [w4relA1, w4relA2, w4relB] 1000000).Pairwise
      (fun a b => a.crate_name < b.crate_name) :=
  selector_semantics [w4crateA, w4crateB] [w4relA1, w4relA2, w4relB] 1000000
